import Mathlib

/-!
Verification of the S3-backed afero filesystem adapter (`s3_fs.go`).

Paths are modelled as `List Char` (Go strings at rune level; all characters
the algorithms branch on are ASCII, so this is faithful), with `String`
wrappers at the API boundary.  The object store and the stream-handle
collaborator are external to the file under verification, so store traffic
is modelled as emitted `S3Call` values and store responses as oracle
functions passed in.
-/

namespace AferoS3

/-- Go `unicode.IsSpace` (the White_Space property), used by
`strings.TrimSpace` in `sanitize` (s3_fs.go line 384). -/
def goIsSpace (c : Char) : Bool :=
  let n := c.toNat
  n == 9 || n == 10 || n == 11 || n == 12 || n == 13 || n == 32 ||
  n == 0x85 || n == 0xA0 || n == 0x1680 || (0x2000 ≤ n && n ≤ 0x200A) ||
  n == 0x2028 || n == 0x2029 || n == 0x202F || n == 0x205F || n == 0x3000

/-- ASCII `[[:alpha:]]` as used by `volumePrefixRegex` (s3_fs.go line 379). -/
def isAsciiAlpha (c : Char) : Bool :=
  (65 ≤ c.toNat && c.toNat ≤ 90) || (97 ≤ c.toNat && c.toNat ≤ 122)

/-- Whether the string starts with the windows volume identifier matched by
`volumePrefixRegex`, i.e. an ASCII letter followed by `:`. -/
def hasVolPfx : List Char → Bool
  | c1 :: c2 :: _ => isAsciiAlpha c1 && c2 == ':'
  | _ => false

/-- `volumePrefixRegex.ReplaceAllString(name, "")` (s3_fs.go line 387):
remove a leading letter-colon volume identifier. -/
def stripVol (l : List Char) : List Char :=
  match l with
  | c1 :: c2 :: rest => if isAsciiAlpha c1 && c2 == ':' then rest else l
  | _ => l

/-- `strings.ReplaceAll(name, "\\", "/")` (s3_fs.go line 388). -/
def repl (l : List Char) : List Char :=
  l.map (fun c => if c = '\\' then '/' else c)

/-- `strings.HasSuffix(name, "/")` (s3_fs.go line 389). -/
def endsSlash (l : List Char) : Bool :=
  l.reverse.head? == some '/'

/-- Number of trailing `/` characters of a path. -/
def trailSlashes (l : List Char) : Nat :=
  (l.reverse.takeWhile (fun c => c == '/')).length

/-- Splitter for Go `path.Clean`: the non-empty, `/`-free path elements of
the input, in order.  `acc` is the (reversed) current element. -/
def segsAcc : List Char → List Char → List (List Char)
  | [], acc => if acc = [] then [] else [acc.reverse]
  | c :: rest, acc =>
    if c = '/' then
      if acc = [] then segsAcc rest [] else acc.reverse :: segsAcc rest []
    else segsAcc rest (c :: acc)

/-- Path elements of a path (empty elements dropped, as `path.Clean` does). -/
def segs (l : List Char) : List (List Char) := segsAcc l []

/-- The `..` path element. -/
def dd : List Char := ['.', '.']

/-- The `.` path element. -/
def dotSeg : List Char := ['.']

/-- Element processing of Go `path.Clean`: `.` is dropped, `..` pops the last
real element (or is kept when unrooted and nothing can be popped; dropped at
the root when rooted), other elements are pushed.  `acc` is the stack
(top first); the result is the processed element list in order. -/
def cleanSegs (rooted : Bool) : List (List Char) → List (List Char) → List (List Char)
  | [], acc => acc.reverse
  | seg :: rest, acc =>
    if seg = dotSeg then cleanSegs rooted rest acc
    else if seg = dd then
      match acc with
      | [] => if rooted then cleanSegs rooted rest [] else cleanSegs rooted rest [dd]
      | top :: acc' =>
        if top = dd then cleanSegs rooted rest (dd :: top :: acc')
        else cleanSegs rooted rest acc'
    else cleanSegs rooted rest (seg :: acc)

/-- Whether the path is rooted (starts with `/`). -/
def rootedb : List Char → Bool
  | c :: _ => c = '/'
  | [] => false

/-- Join path elements with `/`. -/
def joinSegs : List (List Char) → List Char
  | [] => []
  | [s] => s
  | s :: rest => s ++ '/' :: joinSegs rest

/-- Go `path.Clean` (standard library `path` package), rendered functionally:
split into elements, process `.`/`..`, rejoin; empty results become `.`
(or `/` when rooted). -/
def cleanL (p : List Char) : List Char :=
  if p = [] then dotSeg
  else
    let r := rootedb p
    let ss := cleanSegs r (segs p) []
    if r then '/' :: joinSegs ss
    else if ss = [] then dotSeg
    else joinSegs ss

/-- `sanitize` (s3_fs.go lines 383-395): whitespace-only input is returned
unchanged; otherwise strip a volume identifier, turn backslashes into
slashes, lexically clean, and restore one trailing slash if the (converted)
input ended in one. -/
def sanitizeL (p : List Char) : List Char :=
  if p.all goIsSpace then p
  else
    let q := repl (stripVol p)
    let c := cleanL q
    if endsSlash q then c ++ ['/'] else c

/-- String-level `sanitize` (s3_fs.go lines 383-395). -/
def sanitize (s : String) : String := String.mk (sanitizeL s.data)

/-- String-level `path.Clean`. -/
def cleanS (s : String) : String := String.mk (cleanL s.data)

/-- `UploadedFileProperties` (s3_fs.go lines 34-39): four optional fields. -/
structure UploadedFileProperties where
  acl : Option String
  cacheControl : Option String
  contentType : Option String
  contentEncoding : Option String
  deriving DecidableEq

/-- `Fs` (s3_fs.go lines 25-31): bucket, optional default file properties and
the raw-mode toggle.  The session/client handles are external collaborators
and carry no state the facade logic branches on. -/
structure Fs where
  bucket : String
  fileProps : Option UploadedFileProperties
  rawMode : Bool
  deriving DecidableEq

/-- `Fs.sanitize` (s3_fs.go lines 333-338): normalize unless in raw mode. -/
def Fs.sanitize (fs : Fs) (name : String) : String :=
  if fs.rawMode then name else AferoS3.sanitize name

/-- `s3.PutObjectInput` as populated by `Create` (s3_fs.go lines 69-82). -/
structure PutObjectInput where
  bucket : String
  key : String
  bodyLen : Nat
  acl : Option String
  cacheControl : Option String
  contentType : Option String
  contentEncoding : Option String
  deriving DecidableEq

/-- A call issued to the object store client. -/
inductive S3Call where
  | putObject (req : PutObjectInput)
  | copyObject (copySource : String) (key : String)
  | deleteObject (key : String)
  | putObjectAcl (bucket : String) (key : String) (acl : String)
  | waitUntilObjectExists (bucket : String) (key : String)
  deriving DecidableEq

/-- `applyFileCreateProps` (s3_fs.go lines 342-358): copy only the set
fields of the property set onto the request. -/
def applyFileCreateProps (req : PutObjectInput) (p : UploadedFileProperties) : PutObjectInput :=
  let req := match p.acl with
    | some v => { req with acl := some v }
    | none => req
  let req := match p.cacheControl with
    | some v => { req with cacheControl := some v }
    | none => req
  let req := match p.contentType with
    | some v => { req with contentType := some v }
    | none => req
  let req := match p.contentEncoding with
    | some v => { req with contentEncoding := some v }
    | none => req
  req

/-- Go `filepath.Ext` (unix): suffix of the final path element starting at
its last dot, empty when the final element has no dot.  Walks the reversed
string accumulating until the dot. -/
def goExtAux : List Char → List Char → List Char
  | [], _ => []
  | c :: rest, acc =>
    if c == '/' then []
    else if c == '.' then '.' :: acc
    else goExtAux rest (c :: acc)

/-- Go `filepath.Ext` on a string. -/
def goExt (s : String) : String := String.mk (goExtAux s.data.reverse [])

/-- The put request issued by `Create` (s3_fs.go lines 69-82): empty body at
key `name` (the argument as given), default properties applied, content type
guessed from the extension when not set.  `mimeByExt` models the
`mime.TypeByExtension` lookup table (external). -/
def Fs.createReq (fs : Fs) (mimeByExt : String → String) (name : String) : PutObjectInput :=
  let req : PutObjectInput := ⟨fs.bucket, name, 0, none, none, none, none⟩
  let req := match fs.fileProps with
    | some p => applyFileCreateProps req p
    | none => req
  if req.contentType = none then
    { req with contentType := some (mimeByExt (goExt name)) }
  else req

/-- Result of `HeadObject` as consumed by `Stat` (s3_fs.go lines 241-252):
success with length and modification time, a 404 request failure, or any
other error. -/
inductive HeadResult where
  | ok (contentLength : Int) (lastModified : Int)
  | notFound
  | otherErr
  deriving DecidableEq

/-- A `ListObjectsV2` query as issued by `statDirectory` (s3_fs.go
lines 274-278): a key prefix and `MaxKeys`. -/
structure ListQuery where
  pfx : String
  maxKeys : Int
  deriving DecidableEq

/-- Result of `ListObjectsV2`: the key count, or an error. -/
inductive ListResult where
  | ok (keyCount : Nat)
  | err
  deriving DecidableEq

/-- Modelled from the spec: the synthesized metadata record (`FileInfo` /
`NewFileInfo` live in the excluded stream-handle source file): a name, an
is-directory flag, a size and a last-modified timestamp (epoch seconds;
`time.Unix(0, 0)` is 0). -/
structure FileInfo where
  name : String
  directory : Bool
  sizeInBytes : Int
  modTime : Int
  deriving DecidableEq

/-- Modelled from the spec: `NewFileInfo` constructor. -/
def NewFileInfo (name : String) (directory : Bool) (sizeInBytes : Int) (modTime : Int) : FileInfo :=
  ⟨name, directory, sizeInBytes, modTime⟩

/-- Outcome of `Stat`: a `FileInfo`, an `*os.PathError` wrapping
`os.ErrNotExist`, or an `*os.PathError` wrapping any other error. -/
inductive StatOutcome where
  | info (fi : FileInfo)
  | errNotExist (path : String)
  | errOther (path : String)
  deriving DecidableEq

/-- Whether a `Stat` outcome is the not-found error. -/
def StatOutcome.isNotExist : StatOutcome → Bool
  | .errNotExist _ => true
  | _ => false

/-- `strings.TrimPrefix(s, "/")`: drop one leading slash if present. -/
def trimLeadSlash : List Char → List Char
  | '/' :: rest => rest
  | l => l

/-- Go `path.Base`: strip trailing slashes, keep the part after the last
slash; `.` for the empty string, `/` when only slashes remain. -/
def baseL (p : List Char) : List Char :=
  if p = [] then dotSeg
  else
    let p1 := (p.reverse.dropWhile (fun c => c == '/')).reverse
    let p2 := (p1.reverse.takeWhile (fun c => c != '/')).reverse
    if p2 = [] then ['/'] else p2

/-- The prefix listing issued by `statDirectory` (s3_fs.go lines 274-278):
prefix `strings.TrimPrefix(path.Clean(name), "/")`, `MaxKeys` 1. -/
def statDirQuery (name : String) : ListQuery :=
  ⟨String.mk (trimLeadSlash (cleanL name.data)), 1⟩

/-- `statDirectory` (s3_fs.go lines 272-294): bounded prefix listing; zero
matches on a non-empty path is not-found, otherwise a synthesized directory
record with size 0 and the epoch sentinel time. -/
def statDirectory (list : ListQuery → ListResult) (name : String) : StatOutcome :=
  match list (statDirQuery name) with
  | .err => .errOther name
  | .ok keyCount =>
    if keyCount = 0 ∧ name ≠ "" then .errNotExist name
    else .info (NewFileInfo (String.mk (baseL name.data)) true 0 0)

/-- `Stat` (s3_fs.go lines 239-270): head the sanitized path; fall back to
`statDirectory` on a 404; wrap other errors; a successful head on a
slash-terminated path yields the lenient minimal record. -/
def Fs.stat (fs : Fs) (head : String → HeadResult) (list : ListQuery → ListResult)
    (name0 : String) : StatOutcome :=
  let name := fs.sanitize name0
  match head name with
  | .notFound => statDirectory list name
  | .otherErr => .errOther name
  | .ok len lm =>
    if endsSlash name.data then .info ⟨name, false, 0, 0⟩
    else .info (NewFileInfo (String.mk (baseL name.data)) false len lm)

/-- `os.O_RDONLY` on linux. -/
def O_RDONLY : Nat := 0
/-- `os.O_WRONLY` on linux. -/
def O_WRONLY : Nat := 1
/-- `os.O_RDWR` on linux. -/
def O_RDWR : Nat := 2
/-- `os.O_CREATE` on linux. -/
def O_CREATE : Nat := 64
/-- `os.O_APPEND` on linux. -/
def O_APPEND : Nat := 1024

/-- Outcome of `OpenFile`: the not-supported error, a handle with an open
write stream, a directory handle, a handle with a read stream at an offset
(stream behaviour itself is the excluded collaborator), or a surfaced stat
error. -/
inductive OpenResult where
  | errNotSupported
  | write (name : String)
  | dir (name : String)
  | read (name : String) (offset : Int)
  | errStat (path : String)
  deriving DecidableEq

/-- `OpenFile` (s3_fs.go lines 126-164): reject read-write and append;
treat create as write; write-only opens the write stream; otherwise stat and
return a directory handle or open the read stream at offset 0.  The handle's
`Stat` is modelled from the spec as the facade's metadata resolution on the
handle's (already sanitized) name. -/
def Fs.openFile (fs : Fs) (head : String → HeadResult) (list : ListQuery → ListResult)
    (name0 : String) (flag : Nat) : OpenResult :=
  let name := fs.sanitize name0
  if flag &&& O_RDWR ≠ 0 then .errNotSupported
  else if flag &&& O_APPEND ≠ 0 then .errNotSupported
  else
    let flag := if flag &&& O_CREATE ≠ 0 then flag ||| O_WRONLY else flag
    if flag &&& O_WRONLY ≠ 0 then .write name
    else
      match fs.stat head list name with
      | .info fi => if fi.directory then .dir name else .read name 0
      | .errNotExist p => .errStat p
      | .errOther p => .errStat p

/-- `Open` (s3_fs.go lines 120-123). -/
def Fs.open (fs : Fs) (head : String → HeadResult) (list : ListQuery → ListResult)
    (name : String) : OpenResult :=
  fs.openFile head list (fs.sanitize name) O_RDONLY

/-- `Create` (s3_fs.go lines 67-102): the put request, then the write-mode
open, then the readiness wait.  Both the put key and the wait key are the
`name` argument as given; only the `OpenFile` step sanitizes.  The returned
list is the store traffic (assuming the put succeeds), paired with the open
result. -/
def Fs.create (fs : Fs) (mimeByExt : String → String) (head : String → HeadResult)
    (list : ListQuery → ListResult) (name : String) : List S3Call × OpenResult :=
  ([S3Call.putObject (fs.createReq mimeByExt name),
    S3Call.waitUntilObjectExists fs.bucket name],
   fs.openFile head list name O_WRONLY)

/-- `Mkdir` (s3_fs.go lines 105-112): open
`fmt.Sprintf("%s/", path.Clean(fs.sanitize(name)))` with `os.O_CREATE`
(the permission argument is ignored by `OpenFile`). -/
def Fs.mkdir (fs : Fs) (head : String → HeadResult) (list : ListQuery → ListResult)
    (name : String) : OpenResult :=
  fs.openFile head list (String.mk (cleanL (fs.sanitize name).data ++ ['/'])) O_CREATE

/-- `MkdirAll` (s3_fs.go lines 115-117): defined as `Mkdir`. -/
def Fs.mkdirAll (fs : Fs) (head : String → HeadResult) (list : ListQuery → ListResult)
    (name : String) : OpenResult :=
  fs.mkdir head list name

/-- `Rename` (s3_fs.go lines 215-235), exactly as written: line 216 stores
`fs.sanitize(newname)` into `oldname`, then line 217 stores
`fs.sanitize(oldname)` — of the already overwritten variable — into
`newname`.  Returns the store calls issued (assuming each call succeeds):
nothing when the two computed names are equal, otherwise the copy (with
`CopySource = Bucket + oldname`, no separator, as in the source) followed by
the delete. -/
def Fs.rename (fs : Fs) (oldname newname : String) : List S3Call :=
  let oldname1 := fs.sanitize newname
  let newname1 := fs.sanitize oldname1
  if oldname1 = newname1 then []
  else [S3Call.copyObject (fs.bucket ++ oldname1) newname1,
        S3Call.deleteObject oldname1]

/-- `Chmod` (s3_fs.go lines 297-319): the ACL is chosen from the
other-read (`1<<2`) and other-write (`1<<1`) bits of the mode. -/
def Fs.chmod (fs : Fs) (name : String) (mode : Nat) : S3Call :=
  let n := fs.sanitize name
  let otherRead := mode &&& (1 <<< 2) ≠ 0
  let otherWrite := mode &&& (1 <<< 1) ≠ 0
  let acl :=
    if otherRead ∧ otherWrite then "public-read-write"
    else if otherRead then "public-read"
    else "private"
  S3Call.putObjectAcl fs.bucket n acl

/-- A directory entry as reported by the handle's `Readdir` (the enumeration
itself is the excluded collaborator; modelled from the spec:
enumerate-children returns names with an is-directory flag). -/
inductive DirEntry where
  | file (name : String)
  | dir (name : String)
  deriving DecidableEq

/-- Go `path.Join` of two elements: empty parts dropped, joined with `/`,
then cleaned; empty when both parts are empty. -/
def pathJoin (a b : String) : String :=
  if a = "" ∧ b = "" then ""
  else if a = "" then String.mk (cleanL b.data)
  else if b = "" then String.mk (cleanL a.data)
  else String.mk (cleanL (a.data ++ '/' :: b.data))

/-- Child processing of `RemoveAll` (s3_fs.go lines 192-203): recurse into
directories (`recurse` is `RemoveAll` at smaller fuel), delete files, abort
on the first failure. -/
def removeEntries (recurse : String → Option (List S3Call)) (dirName : String) :
    List DirEntry → Option (List S3Call)
  | [] => some []
  | DirEntry.dir n :: rest => do
    let c1 ← recurse (pathJoin dirName n)
    let c2 ← removeEntries recurse dirName rest
    some (c1 ++ c2)
  | DirEntry.file n :: rest => do
    let c2 ← removeEntries recurse dirName rest
    some (S3Call.deleteObject (pathJoin dirName n) :: c2)

/-- `RemoveAll` (s3_fs.go lines 185-209) with explicit fuel for the
recursion depth: sanitize, enumerate children via the `rd` oracle (the
handle's `Readdir`; `none` is a read error), remove children, and finally
delete `s3dir.Name() + "/"` — one more separator appended to the already
sanitized name.  Returns the issued deletions in order, or `none` on
error/fuel exhaustion. -/
def Fs.removeAllGo (fs : Fs) (rd : String → Option (List DirEntry)) :
    Nat → String → Option (List S3Call)
  | 0, _ => none
  | fuel + 1, name0 =>
    let name := fs.sanitize name0
    match rd name with
    | none => none
    | some fis =>
      match removeEntries (fs.removeAllGo rd fuel) name fis with
      | none => none
      | some calls => some (calls ++ [S3Call.deleteObject (name ++ "/")])

/-- `RemoveAll` entry point. -/
def Fs.removeAll (fs : Fs) (rd : String → Option (List DirEntry)) (fuel : Nat)
    (name : String) : Option (List S3Call) :=
  fs.removeAllGo rd fuel name

/-- A concrete handle used for concrete evaluations. -/
def testFs : Fs := ⟨"bucket", none, false⟩

/-- A concrete head oracle: everything is missing. -/
def headNF : String → HeadResult := fun _ => HeadResult.notFound

/-- A concrete listing oracle: no keys match. -/
def listOk0 : ListQuery → ListResult := fun _ => ListResult.ok 0

/-- A concrete listing oracle: one key matches. -/
def listOk1 : ListQuery → ListResult := fun _ => ListResult.ok 1

/-- A concrete `Readdir` oracle: every directory is empty. -/
def rdEmpty : String → Option (List DirEntry) := fun _ => some []

/-- A concrete MIME table. -/
def mimeDefault : String → String := fun _ => "application/octet-stream"

example : sanitize "C:\\a\\b" = "/a/b" := by decide
example : sanitize "/a/../b/" = "/b/" := by decide
example : sanitize "a\\\\b\\\\" = "a/b/" := by decide
example : sanitize "" = "" := by decide
example : sanitize "  " = "  " := by decide
example : sanitize "/" = "//" := by decide
example : sanitize "/.." = "/" := by decide
example : sanitize "./C:" = "C:" := by decide
example : sanitize "C:" = "." := by decide
example : cleanS "a/b/../../../c" = "../c" := by decide
example : cleanS "/a/b/../../.." = "/" := by decide
example : cleanS "a//b/./c" = "a/b/c" := by decide
example : goExt "a/b.txt" = ".txt" := by decide
example : goExt "a.b/c" = "" := by decide

/-! ### Lemmas about trailing separators -/

theorem endsSlash_concat (l : List Char) : endsSlash (l ++ ['/']) = true := by
  simp [endsSlash, List.reverse_append]

theorem endsSlash_append (l₁ l₂ : List Char) (h : l₂ ≠ []) :
    endsSlash (l₁ ++ l₂) = endsSlash l₂ := by
  cases hr : l₂.reverse with
  | nil => exact absurd (by simpa using congrArg List.reverse hr) h
  | cons c t => simp [endsSlash, List.reverse_append, hr]

theorem endsSlash_mem {l : List Char} (h : endsSlash l = true) : '/' ∈ l := by
  cases hr : l.reverse with
  | nil => simp [endsSlash, hr] at h
  | cons c t =>
    have hc : c = '/' := by simpa [endsSlash, hr] using h
    have : c ∈ l.reverse := by simp [hr]
    rw [List.mem_reverse] at this
    exact hc ▸ this

theorem trailSlashes_concat (l : List Char) :
    trailSlashes (l ++ ['/']) = trailSlashes l + 1 := by
  simp [trailSlashes, List.reverse_append, List.takeWhile_cons]

theorem trailSlashes_eq_zero {l : List Char} (h : endsSlash l = false) :
    trailSlashes l = 0 := by
  cases hr : l.reverse with
  | nil => simp [trailSlashes, hr]
  | cons c t =>
    have hc : ¬(c = '/') := by simpa [endsSlash, hr] using h
    simp [trailSlashes, hr, List.takeWhile_cons, hc]

theorem trailSlashes_pos {l : List Char} (h : endsSlash l = true) :
    1 ≤ trailSlashes l := by
  cases hr : l.reverse with
  | nil => simp [endsSlash, hr] at h
  | cons c t =>
    have hc : c = '/' := by simpa [endsSlash, hr] using h
    simp [trailSlashes, hr, List.takeWhile_cons, hc]

/-! ### Lemmas about the volume identifier, backslash conversion, spaces -/

theorem stripVol_of_not_vol {l : List Char} (h : hasVolPfx l = false) :
    stripVol l = l := by
  unfold stripVol
  match l with
  | [] => rfl
  | [c] => rfl
  | c1 :: c2 :: rest =>
    have : ¬(isAsciiAlpha c1 && c2 == ':') = true := by
      simpa [hasVolPfx] using h
    simp [this]

theorem hasVolPfx_concat_slash {l : List Char} (h : hasVolPfx l = false) :
    hasVolPfx (l ++ ['/']) = false := by
  match l with
  | [] => rfl
  | [c] => simp [hasVolPfx]
  | c1 :: c2 :: rest => simpa [hasVolPfx] using h

theorem repl_no_backslash (l : List Char) : '\\' ∉ repl l := by
  intro hm
  rcases List.mem_map.mp hm with ⟨c, _, hc⟩
  by_cases h : c = '\\' <;> simp [h] at hc

theorem repl_of_no_backslash {l : List Char} (h : '\\' ∉ l) : repl l = l := by
  induction l with
  | nil => rfl
  | cons c t ih =>
    have hc : ¬(c = '\\') := fun he => h (he ▸ List.mem_cons_self c t)
    have ht := ih (fun hm => h (List.mem_cons_of_mem c hm))
    simp only [repl, List.map_cons] at ht ⊢
    simp [hc, ht]

theorem repl_append (l₁ l₂ : List Char) : repl (l₁ ++ l₂) = repl l₁ ++ repl l₂ := by
  simp [repl]

theorem stripVol_append_slash (l : List Char) :
    stripVol (l ++ ['/']) = stripVol l ++ ['/'] := by
  match l with
  | [] => rfl
  | [c] => simp [stripVol]
  | c1 :: c2 :: rest =>
    by_cases h : (isAsciiAlpha c1 && c2 == ':') = true <;> simp [stripVol, h]

theorem goIsSpace_backslash : goIsSpace '\\' = false := by decide

theorem goIsSpace_slash : goIsSpace '/' = false := by decide

theorem not_all_space_concat_slash (l : List Char) :
    (l ++ ['/']).all goIsSpace = false := by
  simp [List.all_append, goIsSpace]

/-! ### Lemmas about path splitting and joining -/

theorem segsAcc_nil (acc : List Char) :
    segsAcc [] acc = if acc = [] then [] else [acc.reverse] := rfl

theorem segsAcc_cons_slash_nil (t : List Char) :
    segsAcc ('/' :: t) [] = segsAcc t [] := by
  simp [segsAcc]

theorem segsAcc_cons_slash (t acc : List Char) (ha : acc ≠ []) :
    segsAcc ('/' :: t) acc = acc.reverse :: segsAcc t [] := by
  simp [segsAcc, ha]

theorem segsAcc_cons_ne (c : Char) (t acc : List Char) (hc : c ≠ '/') :
    segsAcc (c :: t) acc = segsAcc t (c :: acc) := by
  simp [segsAcc, hc]

theorem segsAcc_append_no_slash (l₁ l₂ acc : List Char) (h : ∀ c ∈ l₁, c ≠ '/') :
    segsAcc (l₁ ++ l₂) acc = segsAcc l₂ (l₁.reverse ++ acc) := by
  induction l₁ generalizing acc with
  | nil => simp
  | cons c t ih =>
    have hc : ¬ c = '/' := h c (List.mem_cons_self c t)
    rw [List.cons_append, segsAcc_cons_ne c (t ++ l₂) acc hc,
      ih (c :: acc) (fun x hx => h x (List.mem_cons_of_mem c hx))]
    simp

theorem segsAcc_concat_slash (l : List Char) (acc : List Char) :
    segsAcc (l ++ ['/']) acc = segsAcc l acc := by
  induction l generalizing acc with
  | nil => by_cases ha : acc = [] <;> simp [segsAcc, ha]
  | cons c t ih =>
    by_cases hc : c = '/'
    · subst hc
      by_cases ha : acc = [] <;> simp [segsAcc, ha, ih]
    · simp [segsAcc, hc, ih]

theorem segs_concat_slash (l : List Char) : segs (l ++ ['/']) = segs l :=
  segsAcc_concat_slash l []

theorem segs_cons_slash (l : List Char) : segs ('/' :: l) = segs l := by
  simp [segs, segsAcc]

theorem segsAcc_mem {l acc : List Char} {s : List Char}
    (hacc : ∀ c ∈ acc, c ≠ '/') (hs : s ∈ segsAcc l acc) :
    s ≠ [] ∧ ∀ c ∈ s, (c ∈ l ∨ c ∈ acc) ∧ c ≠ '/' := by
  induction l generalizing acc with
  | nil =>
    by_cases ha : acc = []
    · simp [segsAcc, ha] at hs
    · simp only [segsAcc, if_neg ha, List.mem_singleton] at hs
      subst hs
      refine ⟨by simpa using ha, fun c hcm => ?_⟩
      rw [List.mem_reverse] at hcm
      exact ⟨Or.inr hcm, hacc c hcm⟩
  | cons a t ih =>
    by_cases hc : a = '/'
    · subst hc
      by_cases ha : acc = []
      · rw [ha, segsAcc_cons_slash_nil] at hs
        obtain ⟨h1, h2⟩ := @ih [] (by simp) hs
        refine ⟨h1, fun c hcm => ?_⟩
        have hct : c ∈ t := ((h2 c hcm).1).resolve_right (by simp)
        exact ⟨Or.inl (List.mem_cons_of_mem _ hct), (h2 c hcm).2⟩
      · rw [segsAcc_cons_slash t acc ha, List.mem_cons] at hs
        rcases hs with rfl | hs
        · refine ⟨by simpa using ha, fun c hcm => ?_⟩
          rw [List.mem_reverse] at hcm
          exact ⟨Or.inr hcm, hacc c hcm⟩
        · obtain ⟨h1, h2⟩ := @ih [] (by simp) hs
          refine ⟨h1, fun c hcm => ?_⟩
          have hct : c ∈ t := ((h2 c hcm).1).resolve_right (by simp)
          exact ⟨Or.inl (List.mem_cons_of_mem _ hct), (h2 c hcm).2⟩
    · rw [segsAcc_cons_ne a t acc hc] at hs
      have hacc' : ∀ c ∈ a :: acc, c ≠ '/' := by
        intro c hcm
        rcases List.mem_cons.mp hcm with rfl | hcm
        · exact hc
        · exact hacc c hcm
      obtain ⟨h1, h2⟩ := @ih (a :: acc) hacc' hs
      refine ⟨h1, fun c hcm => ?_⟩
      obtain ⟨hor, hne⟩ := h2 c hcm
      rcases hor with hct | hca
      · exact ⟨Or.inl (List.mem_cons_of_mem _ hct), hne⟩
      · rcases List.mem_cons.mp hca with rfl | hca
        · exact ⟨Or.inl (List.mem_cons_self _ _), hne⟩
        · exact ⟨Or.inr hca, hne⟩

theorem segs_good {l : List Char} {s : List Char} (hs : s ∈ segs l) :
    s ≠ [] ∧ ∀ c ∈ s, c ∈ l ∧ c ≠ '/' := by
  obtain ⟨h1, h2⟩ := @segsAcc_mem _ [] _ (by simp) hs
  exact ⟨h1, fun c hcm =>
    ⟨((h2 c hcm).1).resolve_right (by simp), (h2 c hcm).2⟩⟩

theorem joinSegs_cons (s : List Char) (rest : List (List Char)) (h : rest ≠ []) :
    joinSegs (s :: rest) = s ++ '/' :: joinSegs rest := by
  match rest with
  | [] => exact absurd rfl h
  | r :: rs => rfl

theorem joinSegs_ne_nil {ss : List (List Char)} (h : ss ≠ [])
    (hg : ∀ s ∈ ss, s ≠ []) : joinSegs ss ≠ [] := by
  match ss with
  | [s] => simpa [joinSegs] using hg s (by simp)
  | s :: r :: rs => simp [joinSegs]

theorem mem_joinSegs {ss : List (List Char)} {c : Char} (h : c ∈ joinSegs ss) :
    c = '/' ∨ ∃ s ∈ ss, c ∈ s := by
  induction ss with
  | nil => simp [joinSegs] at h
  | cons s rest ih =>
    cases rest with
    | nil => exact Or.inr ⟨s, by simp, by simpa [joinSegs] using h⟩
    | cons r rs =>
      rw [joinSegs_cons _ _ (by simp)] at h
      rcases List.mem_append.mp h with hcm | hcm
      · exact Or.inr ⟨s, by simp, hcm⟩
      · rcases List.mem_cons.mp hcm with rfl | hcm
        · exact Or.inl rfl
        · rcases ih hcm with h | ⟨x, hx, hcx⟩
          · exact Or.inl h
          · exact Or.inr ⟨x, List.mem_cons_of_mem _ hx, hcx⟩

theorem joinSegs_not_endsSlash {ss : List (List Char)} (h : ss ≠ [])
    (hg : ∀ s ∈ ss, s ≠ [] ∧ '/' ∉ s) : endsSlash (joinSegs ss) = false := by
  induction ss with
  | nil => exact absurd rfl h
  | cons s rest ih =>
    cases rest with
    | nil =>
      show endsSlash s = false
      by_contra hcon
      have ht : endsSlash s = true := by
        revert hcon
        cases endsSlash s <;> simp
      exact (hg s (by simp)).2 (endsSlash_mem ht)
    | cons r rs =>
      rw [joinSegs_cons _ _ (by simp), endsSlash_append _ _ (by simp)]
      have hj : joinSegs (r :: rs) ≠ [] :=
        joinSegs_ne_nil (by simp)
          (fun x hx => (hg x (List.mem_cons_of_mem _ hx)).1)
      have hsplit : ('/' :: joinSegs (r :: rs)) = ['/'] ++ joinSegs (r :: rs) := rfl
      rw [hsplit, endsSlash_append _ _ hj]
      exact ih (by simp) (fun x hx => hg x (List.mem_cons_of_mem _ hx))

theorem rootedb_joinSegs {s : List Char} {rest : List (List Char)}
    (hs : s ≠ []) (hslash : '/' ∉ s) :
    rootedb (joinSegs (s :: rest)) = false := by
  match s, hs with
  | c :: t, _ =>
    have hc : ¬ c = '/' := fun he => hslash (he ▸ List.mem_cons_self c t)
    cases rest with
    | nil => simp [joinSegs, rootedb, hc]
    | cons r rs => rw [joinSegs_cons _ _ (by simp)]; simp [rootedb, hc]

theorem segs_join {ss : List (List Char)}
    (hg : ∀ s ∈ ss, s ≠ [] ∧ ∀ c ∈ s, c ≠ '/') :
    segs (joinSegs ss) = ss := by
  induction ss with
  | nil => simp [segs, joinSegs, segsAcc]
  | cons s rest ih =>
    obtain ⟨hs, hsc⟩ := hg s (by simp)
    cases rest with
    | nil =>
      show segsAcc (joinSegs [s]) [] = [s]
      have : joinSegs [s] = s ++ [] := by simp [joinSegs]
      rw [this, segsAcc_append_no_slash s [] [] hsc]
      simp [segsAcc, hs]
    | cons r rs =>
      show segsAcc (joinSegs (s :: r :: rs)) [] = s :: r :: rs
      rw [joinSegs_cons _ _ (by simp),
        segsAcc_append_no_slash s ('/' :: joinSegs (r :: rs)) [] hsc]
      have hrev : s.reverse ++ [] ≠ [] := by simpa using hs
      simp only [segsAcc, if_pos rfl, if_neg hrev]
      have := ih (fun x hx => hg x (List.mem_cons_of_mem _ hx))
      simp only [List.append_nil, List.reverse_reverse]
      exact congrArg (s :: ·) this

/-! ### Lemmas about the element processing of `path.Clean` -/

theorem cleanSegs_nil (r : Bool) (acc : List (List Char)) :
    cleanSegs r [] acc = acc.reverse := rfl

theorem cleanSegs_dot (r : Bool) (rest : List (List Char)) (acc : List (List Char)) :
    cleanSegs r (dotSeg :: rest) acc = cleanSegs r rest acc := by
  simp [cleanSegs]

theorem cleanSegs_dd_nil (r : Bool) (rest : List (List Char)) :
    cleanSegs r (dd :: rest) [] =
      if r then cleanSegs r rest [] else cleanSegs r rest [dd] := by
  simp [cleanSegs, dd, dotSeg]

theorem cleanSegs_dd_cons (r : Bool) (rest : List (List Char))
    (top : List Char) (acc' : List (List Char)) :
    cleanSegs r (dd :: rest) (top :: acc') =
      if top = dd then cleanSegs r rest (dd :: top :: acc')
      else cleanSegs r rest acc' := by
  simp [cleanSegs, dd, dotSeg]

theorem cleanSegs_push (r : Bool) {seg : List Char} (rest : List (List Char))
    (acc : List (List Char)) (h1 : seg ≠ dotSeg) (h2 : seg ≠ dd) :
    cleanSegs r (seg :: rest) acc = cleanSegs r rest (seg :: acc) := by
  simp [cleanSegs, h1, h2]

theorem cleanSegs_mem {r : Bool} {ss acc : List (List Char)} {s : List Char}
    (hs : s ∈ cleanSegs r ss acc) :
    s ∈ acc ∨ (s ∈ ss ∧ s ≠ dotSeg) ∨ s = dd := by
  induction ss generalizing acc with
  | nil =>
    rw [cleanSegs_nil] at hs
    exact Or.inl (List.mem_reverse.mp hs)
  | cons seg rest ih =>
    by_cases h1 : seg = dotSeg
    · subst h1
      rw [cleanSegs_dot] at hs
      rcases ih hs with h | h | h
      · exact Or.inl h
      · exact Or.inr (Or.inl ⟨List.mem_cons_of_mem _ h.1, h.2⟩)
      · exact Or.inr (Or.inr h)
    · by_cases h2 : seg = dd
      · subst h2
        cases acc with
        | nil =>
          rw [cleanSegs_dd_nil] at hs
          cases r with
          | false =>
            simp only [Bool.false_eq_true, if_false] at hs
            rcases ih hs with h | h | h
            · exact Or.inr (Or.inr (List.mem_singleton.mp h))
            · exact Or.inr (Or.inl ⟨List.mem_cons_of_mem _ h.1, h.2⟩)
            · exact Or.inr (Or.inr h)
          | true =>
            simp only [if_true] at hs
            rcases ih hs with h | h | h
            · simp at h
            · exact Or.inr (Or.inl ⟨List.mem_cons_of_mem _ h.1, h.2⟩)
            · exact Or.inr (Or.inr h)
        | cons top acc' =>
          rw [cleanSegs_dd_cons] at hs
          by_cases ht : top = dd
          · rw [if_pos ht] at hs
            rcases ih hs with h | h | h
            · rcases List.mem_cons.mp h with rfl | h
              · exact Or.inr (Or.inr rfl)
              · exact Or.inl h
            · exact Or.inr (Or.inl ⟨List.mem_cons_of_mem _ h.1, h.2⟩)
            · exact Or.inr (Or.inr h)
          · rw [if_neg ht] at hs
            rcases ih hs with h | h | h
            · exact Or.inl (List.mem_cons_of_mem _ h)
            · exact Or.inr (Or.inl ⟨List.mem_cons_of_mem _ h.1, h.2⟩)
            · exact Or.inr (Or.inr h)
      · rw [cleanSegs_push _ _ _ h1 h2] at hs
        rcases ih hs with h | h | h
        · rcases List.mem_cons.mp h with rfl | h
          · exact Or.inr (Or.inl ⟨List.mem_cons_self _ _, h1⟩)
          · exact Or.inl h
        · exact Or.inr (Or.inl ⟨List.mem_cons_of_mem _ h.1, h.2⟩)
        · exact Or.inr (Or.inr h)

theorem cleanSegs_rooted_no_dd {ss acc : List (List Char)} (h : dd ∉ acc) :
    dd ∉ cleanSegs true ss acc := by
  induction ss generalizing acc with
  | nil =>
    rw [cleanSegs_nil]
    simpa using h
  | cons seg rest ih =>
    by_cases h1 : seg = dotSeg
    · subst h1
      rw [cleanSegs_dot]
      exact ih h
    · by_cases h2 : seg = dd
      · subst h2
        cases acc with
        | nil =>
          rw [cleanSegs_dd_nil]
          simp only [if_true]
          exact ih (by simp)
        | cons top acc' =>
          have ht : top ≠ dd := fun he => h (he ▸ List.mem_cons_self top acc')
          rw [cleanSegs_dd_cons, if_neg (fun he => ht he)]
          exact ih (fun hm => h (List.mem_cons_of_mem _ hm))
      · rw [cleanSegs_push _ _ _ h1 h2]
        refine ih ?_
        intro hm
        rcases List.mem_cons.mp hm with he | hm
        · exact h2 he.symm
        · exact h hm

theorem cleanSegs_unrooted_struct (ss : List (List Char)) :
    ∀ front k, dd ∉ front →
      ∃ k' rest, dd ∉ rest ∧
        cleanSegs false ss (front ++ List.replicate k dd) =
          List.replicate k' dd ++ rest := by
  induction ss with
  | nil =>
    intro front k hf
    refine ⟨k, front.reverse, by simpa using hf, ?_⟩
    rw [cleanSegs_nil]
    simp [List.reverse_append, List.reverse_replicate]
  | cons seg rest ih =>
    intro front k hf
    by_cases h1 : seg = dotSeg
    · subst h1
      rw [cleanSegs_dot]
      exact ih front k hf
    · by_cases h2 : seg = dd
      · subst h2
        cases front with
        | nil =>
          cases k with
          | zero =>
            rw [show (([] : List (List Char)) ++ List.replicate 0 dd) = [] by simp,
              cleanSegs_dd_nil]
            simp only [Bool.false_eq_true, if_false]
            have := ih [] 1 (by simp)
            simpa using this
          | succ k' =>
            rw [show (([] : List (List Char)) ++ List.replicate (k' + 1) dd) =
              dd :: List.replicate k' dd by simp [List.replicate_succ],
              cleanSegs_dd_cons, if_pos rfl]
            have := ih [] (k' + 2) (by simp)
            simpa [List.replicate_succ] using this
        | cons f fs =>
          have hfd : f ≠ dd := fun he => hf (he ▸ List.mem_cons_self f fs)
          rw [show ((f :: fs) ++ List.replicate k dd) =
            f :: (fs ++ List.replicate k dd) by simp,
            cleanSegs_dd_cons, if_neg hfd]
          exact ih fs k (fun hm => hf (List.mem_cons_of_mem _ hm))
      · rw [cleanSegs_push _ _ _ h1 h2]
        have := ih (seg :: front) k ?_
        · simpa using this
        · intro hm
          rcases List.mem_cons.mp hm with he | hm
          · exact h2 he.symm
          · exact hf hm

theorem cleanSegs_no_special (r : Bool) (ss : List (List Char))
    (acc : List (List Char)) (h : ∀ s ∈ ss, s ≠ dotSeg ∧ s ≠ dd) :
    cleanSegs r ss acc = acc.reverse ++ ss := by
  induction ss generalizing acc with
  | nil =>
    rw [cleanSegs_nil]
    simp
  | cons seg rest ih =>
    obtain ⟨h1, h2⟩ := h seg (List.mem_cons_self _ _)
    rw [cleanSegs_push _ _ _ h1 h2,
      ih (seg :: acc) (fun x hx => h x (List.mem_cons_of_mem _ hx))]
    simp

theorem cleanSegs_dd_run (ss : List (List Char)) :
    ∀ k j, cleanSegs false (List.replicate k dd ++ ss) (List.replicate j dd) =
      cleanSegs false ss (List.replicate (k + j) dd) := by
  intro k
  induction k with
  | zero => intro j; simp
  | succ k ih =>
    intro j
    rw [List.replicate_succ, List.cons_append]
    cases j with
    | zero =>
      rw [show (List.replicate 0 dd : List (List Char)) = [] from rfl,
        cleanSegs_dd_nil]
      simp only [Bool.false_eq_true, if_false]
      exact ih 1
    | succ j =>
      rw [List.replicate_succ, cleanSegs_dd_cons, if_pos rfl]
      have hacc : (dd :: dd :: List.replicate j dd) = List.replicate (j + 2) dd := by
        simp [List.replicate_succ]
      rw [hacc, ih (j + 2), show k + (j + 2) = k + 1 + (j + 1) by omega]

theorem cleanSegs_fixed_unrooted {k : Nat} {rest : List (List Char)}
    (hrest : dd ∉ rest) (hg : ∀ s ∈ rest, s ≠ dotSeg) :
    cleanSegs false (List.replicate k dd ++ rest) [] =
      List.replicate k dd ++ rest := by
  have h0 : cleanSegs false (List.replicate k dd ++ rest) [] =
      cleanSegs false rest (List.replicate k dd) := by
    have := cleanSegs_dd_run rest k 0
    simpa using this
  rw [h0, cleanSegs_no_special false rest _
    (fun s hs => ⟨hg s hs, fun he => hrest (he ▸ hs)⟩)]
  simp [List.reverse_replicate]

theorem cleanSegs_fixed_rooted {out : List (List Char)} (hdd : dd ∉ out)
    (hg : ∀ s ∈ out, s ≠ dotSeg) :
    cleanSegs true out [] = out := by
  rw [cleanSegs_no_special true out []
    (fun s hs => ⟨hg s hs, fun he => hdd (he ▸ hs)⟩)]
  simp

theorem cleanSegs_out_fixed (r : Bool) (ss0 : List (List Char)) :
    cleanSegs r (cleanSegs r ss0 []) [] = cleanSegs r ss0 [] := by
  cases r with
  | true =>
    apply cleanSegs_fixed_rooted
    · exact cleanSegs_rooted_no_dd (by simp)
    · intro s hs
      rcases cleanSegs_mem hs with h | h | h
      · simp at h
      · exact h.2
      · subst h; decide
  | false =>
    obtain ⟨k, rest, hrest, hout⟩ := cleanSegs_unrooted_struct ss0 [] 0 (by simp)
    rw [show (([] : List (List Char)) ++ List.replicate 0 dd) = [] by simp] at hout
    rw [hout]
    apply cleanSegs_fixed_unrooted hrest
    intro s hs
    have hsout : s ∈ cleanSegs false ss0 [] := by
      rw [hout]
      exact List.mem_append.mpr (Or.inr hs)
    rcases cleanSegs_mem hsout with h | h | h
    · simp at h
    · exact h.2
    · exact absurd (h ▸ hs) hrest

/-! ### Lemmas about `path.Clean` -/

theorem cleanL_eq (p : List Char) (hp : p ≠ []) :
    cleanL p =
      if rootedb p then '/' :: joinSegs (cleanSegs (rootedb p) (segs p) [])
      else if cleanSegs (rootedb p) (segs p) [] = [] then dotSeg
      else joinSegs (cleanSegs (rootedb p) (segs p) []) := by
  simp only [cleanL, if_neg hp]

theorem cleanOut_good {r : Bool} {p : List Char} {s : List Char}
    (hs : s ∈ cleanSegs r (segs p) []) : s ≠ [] ∧ '/' ∉ s := by
  rcases cleanSegs_mem hs with h | h | h
  · simp at h
  · obtain ⟨h1, h2⟩ := segs_good h.1
    exact ⟨h1, fun hm => (h2 '/' hm).2 rfl⟩
  · subst h
    exact ⟨by decide, by decide⟩

theorem cleanOut_not_dot {r : Bool} {p : List Char} {s : List Char}
    (hs : s ∈ cleanSegs r (segs p) []) : s ≠ dotSeg := by
  rcases cleanSegs_mem hs with h | h | h
  · simp at h
  · exact h.2
  · subst h; decide

theorem cleanL_ne_nil (p : List Char) : cleanL p ≠ [] := by
  by_cases hp : p = []
  · subst hp; decide
  · rw [cleanL_eq p hp]
    cases hb : rootedb p
    · simp only [Bool.false_eq_true, if_false]
      by_cases hs0 : cleanSegs false (segs p) [] = []
      · rw [if_pos hs0]; decide
      · rw [if_neg hs0]
        exact joinSegs_ne_nil hs0 (fun x hx => (cleanOut_good hx).1)
    · simp

theorem cleanL_endsSlash {p : List Char} (h : endsSlash (cleanL p) = true) :
    cleanL p = ['/'] := by
  by_cases hp : p = []
  · rw [hp] at h
    exact absurd h (by decide)
  · rw [cleanL_eq p hp] at h ⊢
    cases hb : rootedb p
    · rw [hb] at h
      simp only [Bool.false_eq_true, if_false] at h ⊢
      by_cases hs0 : cleanSegs false (segs p) [] = []
      · rw [if_pos hs0] at h
        exact absurd h (by decide)
      · rw [if_neg hs0] at h
        rw [joinSegs_not_endsSlash hs0 (fun x hx => (cleanOut_good hx))] at h
        exact absurd h (by simp)
    · rw [hb] at h
      simp only [if_true] at h ⊢
      by_cases hs0 : cleanSegs true (segs p) [] = []
      · rw [hs0]; rfl
      · have hj : joinSegs (cleanSegs true (segs p) []) ≠ [] :=
          joinSegs_ne_nil hs0 (fun x hx => (cleanOut_good hx).1)
        rw [show ('/' :: joinSegs (cleanSegs true (segs p) [])) =
          ['/'] ++ joinSegs (cleanSegs true (segs p) []) from rfl,
          endsSlash_append _ _ hj,
          joinSegs_not_endsSlash hs0 (fun x hx => (cleanOut_good hx))] at h
        exact absurd h (by simp)

theorem rootedb_append (p l : List Char) (hp : p ≠ []) :
    rootedb (p ++ l) = rootedb p := by
  match p, hp with
  | c :: t, _ => rfl

theorem cleanL_concat_slash {p : List Char} (hp : p ≠ []) :
    cleanL (p ++ ['/']) = cleanL p := by
  have hp' : p ++ ['/'] ≠ [] := by simp
  rw [cleanL_eq _ hp', cleanL_eq _ hp, segs_concat_slash, rootedb_append p ['/'] hp]

theorem mem_cleanL {p : List Char} {c : Char} (h : c ∈ cleanL p) :
    c = '/' ∨ c = '.' ∨ c ∈ p := by
  by_cases hp : p = []
  · subst hp
    have : c ∈ dotSeg := h
    exact Or.inr (Or.inl (by simpa [dotSeg] using this))
  · rw [cleanL_eq p hp] at h
    have hseg : ∀ (r : Bool), ∀ s ∈ cleanSegs r (segs p) [], ∀ x ∈ s, x = '.' ∨ x ∈ p := by
      intro r s hs x hx
      rcases cleanSegs_mem hs with h' | h' | h'
      · simp at h'
      · exact Or.inr ((segs_good h'.1).2 x hx).1
      · subst h'
        exact Or.inl (by simpa [dd] using hx)
    cases hb : rootedb p
    · rw [hb] at h
      simp only [Bool.false_eq_true, if_false] at h
      by_cases hs0 : cleanSegs false (segs p) [] = []
      · rw [if_pos hs0] at h
        exact Or.inr (Or.inl (by simpa [dotSeg] using h))
      · rw [if_neg hs0] at h
        rcases mem_joinSegs h with h' | ⟨s, hs, hcx⟩
        · exact Or.inl h'
        · rcases hseg false s hs c hcx with h' | h'
          · exact Or.inr (Or.inl h')
          · exact Or.inr (Or.inr h')
    · rw [hb] at h
      simp only [if_true] at h
      rcases List.mem_cons.mp h with rfl | h
      · exact Or.inl rfl
      · rcases mem_joinSegs h with h' | ⟨s, hs, hcx⟩
        · exact Or.inl h'
        · rcases hseg true s hs c hcx with h' | h'
          · exact Or.inr (Or.inl h')
          · exact Or.inr (Or.inr h')

theorem cleanL_idem (p : List Char) : cleanL (cleanL p) = cleanL p := by
  by_cases hp : p = []
  · subst hp; decide
  · rw [cleanL_eq p hp]
    cases hb : rootedb p
    · simp only [Bool.false_eq_true, if_false]
      by_cases hs0 : cleanSegs false (segs p) [] = []
      · rw [if_pos hs0]; decide
      · rw [if_neg hs0]
        have hne : joinSegs (cleanSegs false (segs p) []) ≠ [] :=
          joinSegs_ne_nil hs0 (fun x hx => (cleanOut_good hx).1)
        rw [cleanL_eq _ hne]
        obtain ⟨s0, rest0, hcons⟩ : ∃ s0 rest0,
            cleanSegs false (segs p) [] = s0 :: rest0 := by
          cases hcc : cleanSegs false (segs p) []
          · exact absurd hcc hs0
          · exact ⟨_, _, rfl⟩
        have hs0good : s0 ≠ [] ∧ '/' ∉ s0 :=
          cleanOut_good (hcons ▸ List.mem_cons_self s0 rest0)
        have hro : rootedb (joinSegs (cleanSegs false (segs p) [])) = false := by
          rw [hcons]
          exact rootedb_joinSegs hs0good.1 hs0good.2
        rw [hro]
        simp only [Bool.false_eq_true, if_false]
        rw [segs_join (fun s hs => ⟨(cleanOut_good hs).1,
          fun c hc he => (cleanOut_good hs).2 (he ▸ hc)⟩)]
        rw [cleanSegs_out_fixed false (segs p), if_neg hs0]
    · simp only [if_true]
      have hne : ('/' :: joinSegs (cleanSegs true (segs p) []) : List Char) ≠ [] := by
        simp
      rw [cleanL_eq _ hne]
      have hro : rootedb ('/' :: joinSegs (cleanSegs true (segs p) [])) = true := by
        simp [rootedb]
      rw [hro]
      simp only [if_true]
      rw [segs_cons_slash]
      rw [segs_join (fun s hs => ⟨(cleanOut_good hs).1,
        fun c hc he => (cleanOut_good hs).2 (he ▸ hc)⟩)]
      rw [cleanSegs_out_fixed true (segs p)]

/-! ### Lemmas about `sanitize` -/

theorem sanitizeL_of_space {p : List Char} (h : p.all goIsSpace = true) :
    sanitizeL p = p := by
  simp [sanitizeL, h]

theorem sanitizeL_eq {p : List Char} (h : p.all goIsSpace = false) :
    sanitizeL p =
      if endsSlash (repl (stripVol p)) then cleanL (repl (stripVol p)) ++ ['/']
      else cleanL (repl (stripVol p)) := by
  simp only [sanitizeL, h, Bool.false_eq_true, if_false]

theorem backslash_not_mem_cleanL {p : List Char} (hp : '\\' ∉ p) :
    '\\' ∉ cleanL p := by
  intro hm
  rcases mem_cleanL hm with he | he | he
  · exact absurd he (by decide)
  · exact absurd he (by decide)
  · exact hp he

theorem backslash_not_mem_sanitizeL (p : List Char) : '\\' ∉ sanitizeL p := by
  by_cases h : p.all goIsSpace
  · rw [sanitizeL_of_space h]
    intro hm
    have := List.all_eq_true.mp h '\\' hm
    exact absurd this (by decide)
  · have hf : p.all goIsSpace = false := by simpa using h
    rw [sanitizeL_eq hf]
    have hcl : '\\' ∉ cleanL (repl (stripVol p)) :=
      backslash_not_mem_cleanL (repl_no_backslash _)
    by_cases he : endsSlash (repl (stripVol p)) = true
    · rw [if_pos he]
      intro hm
      rcases List.mem_append.mp hm with hm | hm
      · exact hcl hm
      · exact absurd (List.mem_singleton.mp hm) (by decide)
    · rw [if_neg he]
      exact hcl

theorem sanitizeL_eq_nil_iff (p : List Char) : sanitizeL p = [] ↔ p = [] := by
  constructor
  · intro h
    by_cases hs : p.all goIsSpace
    · rwa [sanitizeL_of_space hs] at h
    · have hf : p.all goIsSpace = false := by simpa using hs
      rw [sanitizeL_eq hf] at h
      by_cases he : endsSlash (repl (stripVol p)) = true
      · rw [if_pos he] at h
        simp at h
      · rw [if_neg he] at h
        exact absurd h (cleanL_ne_nil _)
  · intro h
    subst h
    rfl

theorem sanitizeL_idem {p : List Char} (hvol : hasVolPfx (sanitizeL p) = false)
    (hroot : sanitizeL p ≠ ['/']) :
    sanitizeL (sanitizeL p) = sanitizeL p := by
  by_cases hs : p.all goIsSpace
  · rw [sanitizeL_of_space hs, sanitizeL_of_space hs]
  · have hf : p.all goIsSpace = false := by simpa using hs
    have hstrip : stripVol (sanitizeL p) = sanitizeL p := stripVol_of_not_vol hvol
    have hrepl : repl (sanitizeL p) = sanitizeL p :=
      repl_of_no_backslash (backslash_not_mem_sanitizeL p)
    by_cases hqe : endsSlash (repl (stripVol p)) = true
    · have hsp : sanitizeL p = cleanL (repl (stripVol p)) ++ ['/'] := by
        rw [sanitizeL_eq hf, if_pos hqe]
      have hf2 : (sanitizeL p).all goIsSpace = false := by
        rw [hsp]
        exact not_all_space_concat_slash _
      rw [sanitizeL_eq hf2, hstrip, hrepl, hsp,
        if_pos (endsSlash_concat (cleanL (repl (stripVol p)))),
        cleanL_concat_slash (cleanL_ne_nil _), cleanL_idem]
    · have hsp : sanitizeL p = cleanL (repl (stripVol p)) := by
        rw [sanitizeL_eq hf, if_neg hqe]
      have hse : endsSlash (sanitizeL p) = false := by
        by_contra hcon
        have htr : endsSlash (sanitizeL p) = true := by
          revert hcon
          cases endsSlash (sanitizeL p) <;> simp
        rw [hsp] at htr
        exact hroot (hsp.trans (cleanL_endsSlash htr))
      by_cases hs2 : (sanitizeL p).all goIsSpace
      · rw [sanitizeL_of_space hs2]
      · have hf2 : (sanitizeL p).all goIsSpace = false := by simpa using hs2
        rw [sanitizeL_eq hf2, hstrip, hrepl, hse]
        simp only [Bool.false_eq_true, if_false]
        calc cleanL (sanitizeL p) = cleanL (cleanL (repl (stripVol p))) := by rw [hsp]
          _ = cleanL (repl (stripVol p)) := cleanL_idem _
          _ = sanitizeL p := hsp.symm

theorem sanitize_str_eq_empty_iff (s : String) : sanitize s = "" ↔ s = "" := by
  constructor
  · intro h
    have hd : sanitizeL s.data = [] := congrArg String.data h
    exact String.ext ((sanitizeL_eq_nil_iff _).mp hd)
  · intro h
    subst h
    rfl

theorem Fs.sanitize_eq_empty_iff (fs : Fs) (name : String) :
    fs.sanitize name = "" ↔ name = "" := by
  unfold Fs.sanitize
  by_cases hr : fs.rawMode
  · simp [hr]
  · simp only [hr, Bool.false_eq_true, if_false]
    exact sanitize_str_eq_empty_iff name

theorem endsSlash_stripVol {l : List Char} (h : endsSlash l = true) :
    endsSlash (stripVol l) = true := by
  match l with
  | [] => exact h
  | [c] => exact h
  | c1 :: c2 :: rest =>
    show endsSlash (if isAsciiAlpha c1 && c2 == ':' then rest else c1 :: c2 :: rest) = true
    by_cases hv : (isAsciiAlpha c1 && c2 == ':') = true
    · rw [if_pos hv]
      cases rest with
      | nil =>
        have hc2 : c2 = ':' := by
          have := (Bool.and_eq_true _ _).mp hv
          simpa using this.2
        subst hc2
        exact absurd h (by simp [endsSlash])
      | cons r rs =>
        have hsplit : (c1 :: c2 :: r :: rs) = [c1, c2] ++ (r :: rs) := rfl
        rw [hsplit, endsSlash_append _ _ (by simp)] at h
        exact h
    · rw [if_neg hv]
      exact h

theorem endsSlash_repl_of {l : List Char} (h : endsSlash l = true) :
    endsSlash (repl l) = true := by
  unfold endsSlash at h ⊢
  unfold repl
  rw [← List.map_reverse]
  cases hr : l.reverse with
  | nil => rw [hr] at h; exact absurd h (by decide)
  | cons c t =>
    rw [hr] at h
    have hc : c = '/' := by simpa using h
    subst hc
    simp

theorem sanitizeL_clean_concat {s : List Char}
    (hvol : hasVolPfx (cleanL s) = false) (hbs : '\\' ∉ cleanL s) :
    sanitizeL (cleanL s ++ ['/']) = cleanL s ++ ['/'] := by
  rw [sanitizeL_eq (not_all_space_concat_slash _),
    stripVol_of_not_vol (hasVolPfx_concat_slash hvol)]
  have hrepl : repl (cleanL s ++ ['/']) = cleanL s ++ ['/'] := by
    apply repl_of_no_backslash
    intro hm
    rcases List.mem_append.mp hm with hm | hm
    · exact hbs hm
    · exact absurd (List.mem_singleton.mp hm) (by decide)
  rw [hrepl, if_pos (endsSlash_concat _),
    cleanL_concat_slash (cleanL_ne_nil s), cleanL_idem]

theorem cleanL_sanitizeL_concat_slash {p : List Char} (hp : p ≠ [])
    (hvol : hasVolPfx p = false) :
    cleanL (sanitizeL (p ++ ['/'])) = cleanL (sanitizeL p) := by
  by_cases hs : p.all goIsSpace
  · rw [sanitizeL_of_space hs,
      sanitizeL_eq (not_all_space_concat_slash _),
      stripVol_of_not_vol (hasVolPfx_concat_slash hvol)]
    have hbs : '\\' ∉ p ++ ['/'] := by
      intro hm
      rcases List.mem_append.mp hm with hm | hm
      · exact absurd (List.all_eq_true.mp hs '\\' hm) (by decide)
      · exact absurd (List.mem_singleton.mp hm) (by decide)
    rw [repl_of_no_backslash hbs, if_pos (endsSlash_concat _),
      cleanL_concat_slash (cleanL_ne_nil _), cleanL_idem, cleanL_concat_slash hp]
  · have hf : p.all goIsSpace = false := by simpa using hs
    have hrne : repl p ≠ [] := by
      intro hm
      exact hp (by simpa [repl] using hm)
    have hq : repl (stripVol (p ++ ['/'])) = repl p ++ ['/'] := by
      rw [stripVol_append_slash, stripVol_of_not_vol hvol, repl_append]
      simp [repl]
    rw [sanitizeL_eq (not_all_space_concat_slash _), hq,
      if_pos (endsSlash_concat _),
      cleanL_concat_slash hrne,
      cleanL_concat_slash (cleanL_ne_nil _), cleanL_idem,
      sanitizeL_eq hf, stripVol_of_not_vol hvol]
    by_cases he : endsSlash (repl p) = true
    · rw [if_pos he, cleanL_concat_slash (cleanL_ne_nil _), cleanL_idem]
    · rw [if_neg he, cleanL_idem]

/-- What `Mkdir` does, by computation: it opens (with `os.O_CREATE`, hence
write mode) the handle named by the second sanitization of
`path.Clean(fs.sanitize(name)) + "/"`. -/
theorem mkdir_eq_write (fs : Fs) (head : String → HeadResult)
    (list : ListQuery → ListResult) (name : String) :
    fs.mkdir head list name =
      OpenResult.write
        (fs.sanitize (String.mk (cleanL (fs.sanitize name).data ++ ['/']))) := rfl

theorem mkdir_key_shape (fs : Fs) (name : String) :
    ∃ x : List Char,
      (fs.sanitize (String.mk (cleanL (fs.sanitize name).data ++ ['/']))).data =
        x ++ ['/'] ∧ (endsSlash x = true → x = ['/']) := by
  by_cases hr : fs.rawMode = true
  · refine ⟨cleanL (fs.sanitize name).data, ?_, fun h => cleanL_endsSlash h⟩
    simp [Fs.sanitize, hr]
  · have hdata : (fs.sanitize (String.mk (cleanL (fs.sanitize name).data ++ ['/']))).data =
        sanitizeL (cleanL (fs.sanitize name).data ++ ['/']) := by
      simp [Fs.sanitize, hr, sanitize]
    rw [hdata, sanitizeL_eq (not_all_space_concat_slash _)]
    have hq : endsSlash (repl (stripVol (cleanL (fs.sanitize name).data ++ ['/']))) = true :=
      endsSlash_repl_of (endsSlash_stripVol (endsSlash_concat _))
    rw [if_pos hq]
    exact ⟨cleanL (repl (stripVol (cleanL (fs.sanitize name).data ++ ['/']))), rfl,
      fun h => cleanL_endsSlash h⟩

/-! ### Claim theorems -/

/-- Claim C1 (code bug, evaluated at the failing input): for the distinct
paths `"a"` and `"b"` — whose normalized forms differ — `Rename` issues no
copy and no delete at all.  Lines 216-217 of s3_fs.go assign
`fs.sanitize(newname)` to `oldname` and then sanitize that same variable
into `newname`, so the no-op equality check compares `sanitize(new)` with
`sanitize(sanitize(new))` and the old path is never consulted. -/
theorem rename_swapped_no_calls :
    testFs.sanitize "a" ≠ testFs.sanitize "b" ∧ testFs.rename "a" "b" = [] := by
  decide

/-- Claim C2 (code bug, evaluated at the failing input): renaming `"/."` to
the very same path `"/."` — both normalize to `"/"` — is not a no-op: because
of the swapped assignments the equality check compares `sanitize("/.") = "/"`
with `sanitize("/") = "//"`, so a copy and a delete are issued. -/
theorem rename_same_path_issues_calls :
    testFs.sanitize "/." = "/" ∧
    testFs.rename "/." "/." =
      [S3Call.copyObject "bucket/" "//", S3Call.deleteObject "/"] ∧
    testFs.rename "/." "/." ≠ [] := by
  decide

/-- Claim C3, counterexample: `sanitize` is not idempotent at `"/.."`: one
application yields `"/"`, a second application yields `"//"`. -/
theorem sanitize_not_idempotent_at_root :
    sanitize "/.." = "/" ∧ sanitize (sanitize "/..") = "//" ∧
    sanitize (sanitize "/..") ≠ sanitize "/.." := by
  decide

/-- Claim C3 (amended): path normalization is idempotent for every input
whose one-pass output is neither exactly the root `"/"` (there a second pass
appends another separator, giving `"//"`) nor begins with a letter-colon
volume identifier (which a second pass would strip again).  In particular
this covers the empty string, whitespace-only strings, `C:\a\b`, `/a/../b/`
and `a\\b\\`. -/
theorem sanitize_idempotent_away_from_root_and_volume (p : String)
    (hvol : hasVolPfx (sanitize p).data = false) (hroot : sanitize p ≠ "/") :
    sanitize (sanitize p) = sanitize p := by
  apply String.ext
  have h1 : (sanitize p).data = sanitizeL p.data := rfl
  show sanitizeL (sanitize p).data = sanitizeL p.data
  rw [h1]
  apply sanitizeL_idem
  · rw [← h1]
    exact hvol
  · intro he
    exact hroot (String.ext (h1.trans he))

/-- Claim C3, witness: the amended idempotence theorem applied at `"a/b/"`. -/
theorem sanitize_idempotent_witness :
    sanitize (sanitize "a/b/") = sanitize "a/b/" :=
  sanitize_idempotent_away_from_root_and_volume "a/b/" (by decide) (by decide)

/-- Claim C4, counterexample: `Create` puts at the raw key, not the
normalized one: with path sanitation active, the put request for `"a\b"`
carries the raw key `"a\b"`, while the normalized path is `"a/b"`. -/
theorem create_key_not_normalized :
    (testFs.createReq mimeDefault "a\\b").key = "a\\b" ∧
    testFs.sanitize "a\\b" = "a/b" ∧
    (testFs.createReq mimeDefault "a\\b").key ≠ testFs.sanitize "a\\b" := by
  decide

/-- Claim C4 (amended): `Create` issues its empty-body put request with the
key equal to the path argument as given (not normalized — only the inner
`OpenFile` step normalizes), applies the handle's default property set when
present (unset fields stay unset), guesses a content type from the path's
extension exactly when no content-type override exists, and its readiness
wait polls the same raw key. -/
theorem create_uses_raw_key_and_props (fs : Fs) (mimeByExt : String → String)
    (head : String → HeadResult) (list : ListQuery → ListResult) (name : String) :
    (fs.create mimeByExt head list name).1 =
      [S3Call.putObject (fs.createReq mimeByExt name),
       S3Call.waitUntilObjectExists fs.bucket name] ∧
    (fs.createReq mimeByExt name).key = name ∧
    (fs.createReq mimeByExt name).bucket = fs.bucket ∧
    (fs.createReq mimeByExt name).bodyLen = 0 ∧
    (fs.createReq mimeByExt name).acl = fs.fileProps.bind UploadedFileProperties.acl ∧
    (fs.createReq mimeByExt name).cacheControl =
      fs.fileProps.bind UploadedFileProperties.cacheControl ∧
    (fs.createReq mimeByExt name).contentEncoding =
      fs.fileProps.bind UploadedFileProperties.contentEncoding ∧
    (fs.createReq mimeByExt name).contentType =
      some ((fs.fileProps.bind UploadedFileProperties.contentType).getD
        (mimeByExt (goExt name))) := by
  cases hp : fs.fileProps with
  | none => simp [Fs.create, Fs.createReq, hp]
  | some p =>
    obtain ⟨a, cc, ct, ce⟩ := p
    cases a <;> cases cc <;> cases ct <;> cases ce <;>
      simp [Fs.create, Fs.createReq, applyFileCreateProps, hp]

/-- Claim C8, counterexample: the input `"/"` is non-empty, not whitespace,
and its backslash-converted form ends in a separator, yet the normalized
output is `"//"`, which ends in two trailing separators, not exactly one. -/
theorem sanitize_trailing_not_exactly_one_at_root :
    ("/" : String) ≠ "" ∧ ("/" : String).data.all goIsSpace = false ∧
    endsSlash (repl (stripVol ("/" : String).data)) = true ∧
    sanitize "/" = "//" ∧ trailSlashes (sanitize "/").data ≠ 1 := by
  decide

/-- Claim C8 (amended): for every non-empty, non-whitespace input, with `q`
its volume-stripped backslash-converted form: when `q` ends in a separator
the normalized output ends in exactly one trailing separator, except when
`q` lexically cleans to the root `"/"`, where the output is `"//"` (two);
when `q` does not end in a separator the output has no trailing separator,
except when `q` cleans to the root, where the output is `"/"` itself (one). -/
theorem sanitize_trailing_separator (p : String)
    (h : p.data.all goIsSpace = false) :
    (endsSlash (repl (stripVol p.data)) = true →
      trailSlashes (sanitize p).data =
        (if cleanL (repl (stripVol p.data)) = ['/'] then 2 else 1)) ∧
    (endsSlash (repl (stripVol p.data)) = false →
      trailSlashes (sanitize p).data =
        (if cleanL (repl (stripVol p.data)) = ['/'] then 1 else 0)) := by
  have hd : (sanitize p).data = sanitizeL p.data := rfl
  have htr : cleanL (repl (stripVol p.data)) ≠ ['/'] →
      trailSlashes (cleanL (repl (stripVol p.data))) = 0 := by
    intro hce
    apply trailSlashes_eq_zero
    by_contra hcon
    have hct : endsSlash (cleanL (repl (stripVol p.data))) = true := by
      revert hcon
      cases endsSlash (cleanL (repl (stripVol p.data))) <;> simp
    exact hce (cleanL_endsSlash hct)
  constructor
  · intro he
    rw [hd, sanitizeL_eq h, if_pos he, trailSlashes_concat]
    by_cases hc : cleanL (repl (stripVol p.data)) = ['/']
    · rw [if_pos hc, hc]
      decide
    · rw [if_neg hc, htr hc]
  · intro he
    rw [hd, sanitizeL_eq h, if_neg (by simp [he])]
    by_cases hc : cleanL (repl (stripVol p.data)) = ['/']
    · rw [if_pos hc, hc]
      decide
    · rw [if_neg hc, htr hc]

/-- Claim C8, witness: the amended theorem applied at `"dir/"` and `"dir"`:
the first normalizes to a path with exactly one trailing separator, the
second to one with none. -/
theorem sanitize_trailing_separator_witness :
    trailSlashes (sanitize "dir/").data = 1 ∧
    trailSlashes (sanitize "dir").data = 0 :=
  ⟨((sanitize_trailing_separator "dir/" (by decide)).1 (by decide)).trans (by decide),
   ((sanitize_trailing_separator "dir" (by decide)).2 (by decide)).trans (by decide)⟩

/-- Claim C5: `Stat` returns the not-found error exactly when the head
lookup reports 404, the bounded prefix listing (`MaxKeys` 1) matches zero
keys, and the path is non-empty; when the head reports 404 but at least one
key matches the prefix, `Stat` returns a directory record with size 0 and
the epoch sentinel timestamp. -/
theorem stat_not_found_iff (fs : Fs) (head : String → HeadResult)
    (list : ListQuery → ListResult) (name : String) :
    ((fs.stat head list name).isNotExist = true ↔
      (head (fs.sanitize name) = HeadResult.notFound ∧
       list (statDirQuery (fs.sanitize name)) = ListResult.ok 0 ∧ name ≠ "")) ∧
    (∀ k : Nat, head (fs.sanitize name) = HeadResult.notFound →
      list (statDirQuery (fs.sanitize name)) = ListResult.ok k → k ≠ 0 →
      fs.stat head list name =
        StatOutcome.info
          (NewFileInfo (String.mk (baseL (fs.sanitize name).data)) true 0 0)) := by
  have hempty := Fs.sanitize_eq_empty_iff fs name
  cases hh : head (fs.sanitize name) with
  | ok len lm =>
    have hstat : (fs.stat head list name).isNotExist = false := by
      simp only [Fs.stat, hh]
      by_cases hsl : endsSlash (fs.sanitize name).data = true
      · rw [if_pos hsl]; rfl
      · rw [if_neg hsl]; rfl
    refine ⟨⟨fun hne => ?_, fun hrhs => ?_⟩, fun k hk1 hk2 hk3 => ?_⟩
    · rw [hstat] at hne
      exact absurd hne (by simp)
    · exact absurd hrhs.1 (by simp)
    · exact absurd hk1 (by simp)
  | otherErr =>
    have hstat : fs.stat head list name = StatOutcome.errOther (fs.sanitize name) := by
      simp only [Fs.stat, hh]
    refine ⟨⟨fun hne => ?_, fun hrhs => ?_⟩, fun k hk1 hk2 hk3 => ?_⟩
    · rw [hstat] at hne
      exact absurd hne (by simp [StatOutcome.isNotExist])
    · exact absurd hrhs.1 (by simp)
    · exact absurd hk1 (by simp)
  | notFound =>
    cases hl : list (statDirQuery (fs.sanitize name)) with
    | err =>
      have hstat : fs.stat head list name = StatOutcome.errOther (fs.sanitize name) := by
        simp only [Fs.stat, statDirectory, hh, hl]
      refine ⟨⟨fun hne => ?_, fun hrhs => ?_⟩, fun k hk1 hk2 hk3 => ?_⟩
      · rw [hstat] at hne
        exact absurd hne (by simp [StatOutcome.isNotExist])
      · exact absurd hrhs.2.1 (by simp)
      · exact absurd hk2 (by simp)
    | ok kc =>
      by_cases hcond : kc = 0 ∧ fs.sanitize name ≠ ""
      · have hstat : fs.stat head list name =
            StatOutcome.errNotExist (fs.sanitize name) := by
          simp only [Fs.stat, statDirectory, hh, hl]
          rw [if_pos hcond]
        refine ⟨⟨fun _ => ⟨rfl, ?_, ?_⟩, fun _ => ?_⟩, fun k hk1 hk2 hk3 => ?_⟩
        · rw [hcond.1]
        · exact fun he => hcond.2 (hempty.mpr he)
        · rw [hstat]; rfl
        · have hkk : kc = k := by injection hk2
          exact absurd (hkk ▸ hcond.1) hk3
      · have hstat : fs.stat head list name =
            StatOutcome.info
              (NewFileInfo (String.mk (baseL (fs.sanitize name).data)) true 0 0) := by
          simp only [Fs.stat, statDirectory, hh, hl]
          rw [if_neg hcond]
        refine ⟨⟨fun hne => ?_, fun hrhs => ?_⟩, fun k hk1 hk2 hk3 => ?_⟩
        · rw [hstat] at hne
          exact absurd hne (by simp [StatOutcome.isNotExist])
        · have hkc : kc = 0 := by injection hrhs.2.1
          exact absurd ⟨hkc, fun he => hrhs.2.2 (hempty.mp he)⟩ hcond
        · exact hstat

/-- Claim C5, witness: with a head oracle reporting 404 everywhere, a
listing oracle matching zero keys yields not-found on `"x"`, and one
matching one key yields the synthesized directory record. -/
theorem stat_not_found_iff_witness :
    (testFs.stat headNF listOk0 "x").isNotExist = true ∧
    testFs.stat headNF listOk1 "x" = StatOutcome.info (NewFileInfo "x" true 0 0) :=
  ⟨((stat_not_found_iff testFs headNF listOk0 "x").1).mpr ⟨rfl, rfl, by decide⟩,
   ((stat_not_found_iff testFs headNF listOk1 "x").2 1 rfl rfl (by decide)).trans
     (by decide)⟩

/-- Claim C6: `OpenFile` with any flag set including the read-write flag
fails with the not-supported error (no usable handle is produced), and
likewise for any flag set including the append flag, regardless of which
other flags are set. -/
theorem openFile_rdwr_append_not_supported (fs : Fs) (head : String → HeadResult)
    (list : ListQuery → ListResult) (name : String) (flag : Nat) :
    (flag &&& O_RDWR ≠ 0 →
      fs.openFile head list name flag = OpenResult.errNotSupported) ∧
    (flag &&& O_APPEND ≠ 0 →
      fs.openFile head list name flag = OpenResult.errNotSupported) := by
  constructor
  · intro h
    simp only [Fs.openFile]
    rw [if_pos h]
  · intro h
    simp only [Fs.openFile]
    by_cases h2 : flag &&& O_RDWR ≠ 0
    · rw [if_pos h2]
    · rw [if_neg h2, if_pos h]

/-- Claim C6, witness: opening with `O_RDWR`, and with `O_APPEND` combined
with another flag, both fail not-supported. -/
theorem openFile_rdwr_append_witness :
    testFs.openFile headNF listOk0 "x" O_RDWR = OpenResult.errNotSupported ∧
    testFs.openFile headNF listOk0 "x" (O_APPEND ||| O_WRONLY) =
      OpenResult.errNotSupported :=
  ⟨(openFile_rdwr_append_not_supported testFs headNF listOk0 "x" O_RDWR).1
     (by decide),
   (openFile_rdwr_append_not_supported testFs headNF listOk0 "x"
     (O_APPEND ||| O_WRONLY)).2 (by decide)⟩

/-- Claim C7: `Chmod` sets the access-control level as a function of only
the "other" read (`1<<2`) and write (`1<<1`) bits of the mode: both set
gives public-read-write, the read bit alone gives public-read, and every
other combination gives private; two modes agreeing on those two bits are
treated identically. -/
theorem chmod_acl_from_other_bits (fs : Fs) (name : String) (mode : Nat) :
    fs.chmod name mode =
      S3Call.putObjectAcl fs.bucket (fs.sanitize name)
        (if mode &&& 4 ≠ 0 ∧ mode &&& 2 ≠ 0 then "public-read-write"
         else if mode &&& 4 ≠ 0 then "public-read"
         else "private") ∧
    (∀ m2 : Nat, (mode &&& 4 = 0 ↔ m2 &&& 4 = 0) →
      (mode &&& 2 = 0 ↔ m2 &&& 2 = 0) →
      fs.chmod name mode = fs.chmod name m2) := by
  constructor
  · rfl
  · intro m2 h4 h2
    have e4 : (mode &&& (1 <<< 2) ≠ 0) = (m2 &&& (1 <<< 2) ≠ 0) := by
      show (mode &&& 4 ≠ 0) = (m2 &&& 4 ≠ 0)
      exact propext (not_iff_not.mpr h4)
    have e2 : (mode &&& (1 <<< 1) ≠ 0) = (m2 &&& (1 <<< 1) ≠ 0) := by
      show (mode &&& 2 ≠ 0) = (m2 &&& 2 ≠ 0)
      exact propext (not_iff_not.mpr h2)
    simp only [Fs.chmod, e4, e2]

/-- Claim C7, witness: other-read and other-write set gives
public-read-write, and mode `0o646` behaves exactly like mode `6`. -/
theorem chmod_acl_witness :
    testFs.chmod "f" 6 = S3Call.putObjectAcl "bucket" "f" "public-read-write" ∧
    testFs.chmod "f" 422 = testFs.chmod "f" 6 :=
  ⟨((chmod_acl_from_other_bits testFs "f" 6).1).trans (by decide),
   (chmod_acl_from_other_bits testFs "f" 422).2 6 (by decide) (by decide)⟩

/-- Claim C9, counterexample: with path sanitation active, for the name
`"./C:"` the marker is written at key `"//"`, not at the key obtained by
cleaning the sanitized name and appending one separator, which is `"C:/"`:
the second sanitization inside `OpenFile` strips the re-exposed volume
identifier. -/
theorem mkdir_key_not_clean_append_at_volume :
    testFs.mkdir headNF listOk0 "./C:" = OpenResult.write "//" ∧
    String.mk (cleanL (testFs.sanitize "./C:").data ++ ['/']) = "C:/" ∧
    ("//" : String) ≠ "C:/" := by
  decide

/-- Claim C9 (amended): `Mkdir` writes its marker at the second
sanitization of `clean(fs.sanitize(name)) + "/"`; whenever the cleaned
sanitized name does not begin with a volume identifier this equals
`clean(fs.sanitize(name)) + "/"` — one separator appended to the lexically
cleaned sanitized name; for non-empty names with no volume identifier,
inputs with and without a trailing separator address the same marker key;
and `MkdirAll` performs exactly `Mkdir`. -/
theorem mkdir_marker_key (fs : Fs) (head : String → HeadResult)
    (list : ListQuery → ListResult) (name : String) :
    (hasVolPfx (cleanL (fs.sanitize name).data) = false →
      fs.mkdir head list name =
        OpenResult.write (String.mk (cleanL (fs.sanitize name).data ++ ['/']))) ∧
    (name ≠ "" → hasVolPfx name.data = false →
      fs.mkdir head list (name ++ "/") = fs.mkdir head list name) ∧
    fs.mkdirAll head list name = fs.mkdir head list name := by
  refine ⟨?_, ?_, rfl⟩
  · intro hvol
    rw [mkdir_eq_write]
    congr 1
    by_cases hr : fs.rawMode = true
    · simp [Fs.sanitize, hr]
    · have hs : fs.sanitize (String.mk (cleanL (fs.sanitize name).data ++ ['/'])) =
          String.mk (sanitizeL (cleanL (fs.sanitize name).data ++ ['/'])) := by
        simp [Fs.sanitize, hr, sanitize]
      rw [hs]
      apply congrArg String.mk
      apply sanitizeL_clean_concat hvol
      apply backslash_not_mem_cleanL
      have hd : (fs.sanitize name).data = sanitizeL name.data := by
        simp [Fs.sanitize, hr, sanitize]
      rw [hd]
      exact backslash_not_mem_sanitizeL _
  · intro hne hvol
    rw [mkdir_eq_write, mkdir_eq_write]
    have hdne : name.data ≠ [] := fun he => hne (String.ext he)
    have key : cleanL (fs.sanitize (name ++ "/")).data =
        cleanL (fs.sanitize name).data := by
      by_cases hr : fs.rawMode = true
      · have h1 : fs.sanitize (name ++ "/") = name ++ "/" := by
          simp [Fs.sanitize, hr]
        have h2 : fs.sanitize name = name := by
          simp [Fs.sanitize, hr]
        rw [h1, h2]
        have h3 : (name ++ "/").data = name.data ++ ['/'] := by
          rw [String.data_append]
        rw [h3]
        exact cleanL_concat_slash hdne
      · have h1 : (fs.sanitize (name ++ "/")).data = sanitizeL (name.data ++ ['/']) := by
          simp [Fs.sanitize, hr, sanitize, String.data_append]
        have h2 : (fs.sanitize name).data = sanitizeL name.data := by
          simp [Fs.sanitize, hr, sanitize]
        rw [h1, h2]
        exact cleanL_sanitizeL_concat_slash hdne hvol
    rw [key]

/-- Claim C9, witness: `"dir"` gets its marker at `"dir/"`, `"dir/"`
addresses the same marker, and `MkdirAll` equals `Mkdir` there. -/
theorem mkdir_marker_key_witness :
    testFs.mkdir headNF listOk0 "dir" = OpenResult.write "dir/" ∧
    testFs.mkdir headNF listOk0 "dir/" = testFs.mkdir headNF listOk0 "dir" ∧
    testFs.mkdirAll headNF listOk0 "dir" = testFs.mkdir headNF listOk0 "dir" :=
  ⟨((mkdir_marker_key testFs headNF listOk0 "dir").1 (by decide)).trans (by decide),
   (mkdir_marker_key testFs headNF listOk0 "dir").2.1 (by decide) (by decide),
   (mkdir_marker_key testFs headNF listOk0 "dir").2.2⟩

/-- Unfolding of one step of `RemoveAll` at positive fuel. -/
theorem removeAllGo_succ (fs : Fs) (rd : String → Option (List DirEntry))
    (fuel : Nat) (name0 : String) :
    fs.removeAllGo rd (fuel + 1) name0 =
      match rd (fs.sanitize name0) with
      | none => none
      | some fis =>
        match removeEntries (fs.removeAllGo rd fuel) (fs.sanitize name0) fis with
        | none => none
        | some calls =>
          some (calls ++ [S3Call.deleteObject (fs.sanitize name0 ++ "/")]) := rfl

/-- Claim C10, counterexample: for `"/../.."`, whose sanitized form `"/"`
already ends in a separator, `RemoveAll`'s final marker deletion targets
`"//"` — and `Mkdir` creates its marker for the same directory at exactly
that key `"//"`, so the two keys coincide rather than differ. -/
theorem removeAll_marker_equals_mkdir_at_root :
    endsSlash (testFs.sanitize "/../..").data = true ∧
    testFs.removeAll rdEmpty 1 "/../.." = some [S3Call.deleteObject "//"] ∧
    testFs.mkdir headNF listOk0 "/../.." = OpenResult.write "//" := by
  decide

/-- Claim C10 (amended): for every name whose sanitized form ends in a
separator, `RemoveAll`'s final marker deletion targets the sanitized name
with one more separator appended — a key ending in two separators — and
whenever the sanitized name is not the root `"/"` this key differs from
every marker key `Mkdir` can create for the same directory (at the root the
two coincide, both being `"//"`). -/
theorem removeAll_marker_double_separator (fs : Fs)
    (rd : String → Option (List DirEntry)) (fuel : Nat) (name : String)
    (out : List S3Call)
    (hrun : fs.removeAll rd (fuel + 1) name = some out)
    (hends : endsSlash (fs.sanitize name).data = true) :
    out.getLast? = some (S3Call.deleteObject (fs.sanitize name ++ "/")) ∧
    2 ≤ trailSlashes (fs.sanitize name ++ "/").data ∧
    (fs.sanitize name ≠ "/" →
      ∀ head list, fs.mkdir head list name ≠
        OpenResult.write (fs.sanitize name ++ "/")) := by
  have hdata : (fs.sanitize name ++ "/").data = (fs.sanitize name).data ++ ['/'] := by
    rw [String.data_append]
  refine ⟨?_, ?_, ?_⟩
  · unfold Fs.removeAll at hrun
    rw [removeAllGo_succ] at hrun
    split at hrun
    · exact absurd hrun (by simp)
    · split at hrun
      · exact absurd hrun (by simp)
      · rw [← Option.some.inj hrun]
        exact List.getLast?_concat _
  · rw [hdata, trailSlashes_concat]
    have := trailSlashes_pos hends
    omega
  · intro hne head list hcon
    rw [mkdir_eq_write] at hcon
    injection hcon with hkey
    obtain ⟨x, hx, hxe⟩ := mkdir_key_shape fs name
    have hxx : x ++ ['/'] = (fs.sanitize name).data ++ ['/'] := by
      rw [← hx, hkey, hdata]
    have hxs : x = (fs.sanitize name).data := List.append_cancel_right hxx
    have hxe2 : x = ['/'] := hxe (by rw [hxs]; exact hends)
    apply hne
    apply String.ext
    show (fs.sanitize name).data = ['/']
    rw [← hxs]
    exact hxe2

/-- Claim C10, witness: for `"dir/"` (sanitized `"dir/"`, ending in a
separator), `RemoveAll` of an empty directory deletes exactly the
double-separator key `"dir//"`, which `Mkdir` never uses as a marker key. -/
theorem removeAll_marker_double_separator_witness :
    ([S3Call.deleteObject "dir//"] : List S3Call).getLast? =
      some (S3Call.deleteObject (testFs.sanitize "dir/" ++ "/")) ∧
    2 ≤ trailSlashes (testFs.sanitize "dir/" ++ "/").data ∧
    testFs.mkdir headNF listOk0 "dir/" ≠
      OpenResult.write (testFs.sanitize "dir/" ++ "/") :=
  ⟨(removeAll_marker_double_separator testFs rdEmpty 0 "dir/"
      [S3Call.deleteObject "dir//"] (by decide) (by decide)).1,
   (removeAll_marker_double_separator testFs rdEmpty 0 "dir/"
      [S3Call.deleteObject "dir//"] (by decide) (by decide)).2.1,
   (removeAll_marker_double_separator testFs rdEmpty 0 "dir/"
      [S3Call.deleteObject "dir//"] (by decide) (by decide)).2.2 (by decide)
      headNF listOk0⟩

end AferoS3
